import Mathlib

/-!
Shallow embedding of `src/main.rs` of the `trim_quals` repository.

Quality values are bytes; since `reduce_single_qual` guards its subtraction,
no wrap-around ever occurs and `Nat` models `u8` exactly (inputs are meant to
lie below 256, and the transform never increases a value).  `Vec<u8>` is
modelled as `List Nat`.  Rust's panicking index operation `qual[pos]` is
modelled as a bounds-checked access returning `Option`: a `none` result of an
embedded function marks the execution in which the Rust program panics with an
out-of-bounds index.  A Rust `for pos in 0..n` loop is embedded as the
structural recursion `forRange`, which applies the loop body to
`pos = 0, 1, ..., n-1` in ascending order and propagates a panic (`none`).
-/

namespace TrimQuals

/-- Embedding of `reduce_single_qual` (src/main.rs lines 17-25):
returns `q - qual_reduction` when `q >= qual_reduction`, else `0`. -/
def reduce_single_qual (q : Nat) (qual_reduction : Nat) : Nat :=
  if q ≥ qual_reduction then q - qual_reduction else 0

/-- One array update `qual[i] = reduce_single_qual(qual[i], r)`:
`none` when index `i` is out of bounds (Rust panics there). -/
def applyReduceAt (qual : List Nat) (r : Nat) (i : Nat) : Option (List Nat) :=
  match qual[i]? with
  | some q => some (qual.set i (reduce_single_qual q r))
  | none => none

/-- Body of the first (leading) loop of `reduce_qualities_in_edges`
(src/main.rs lines 37-42): skip when `pos >= seq_len`, else reduce in place. -/
def leadStep (seq_len r : Nat) (acc : Option (List Nat)) (pos : Nat) :
    Option (List Nat) :=
  match acc with
  | none => none
  | some qual =>
      if pos ≥ seq_len then some qual
      else applyReduceAt qual r pos

/-- Body of the second (trailing) loop of `reduce_qualities_in_edges`
(src/main.rs lines 45-51): `pos_from_end = seq_len.saturating_sub(pos + 1)`
(Nat subtraction is saturating), skip when `pos_from_end < num_bases`,
else reduce in place. -/
def trailStep (seq_len num_bases r : Nat) (acc : Option (List Nat)) (pos : Nat) :
    Option (List Nat) :=
  match acc with
  | none => none
  | some qual =>
      let pos_from_end := seq_len - (pos + 1)
      if pos_from_end < num_bases then some qual
      else applyReduceAt qual r pos_from_end

/-- `forRange f acc n` runs `f` on `pos = 0, 1, ..., n-1` in ascending order,
threading the accumulator: the embedding of `for pos in 0..n`. -/
def forRange (f : Option (List Nat) → Nat → Option (List Nat))
    (acc : Option (List Nat)) : Nat → Option (List Nat)
  | 0 => acc
  | m + 1 => f (forRange f acc m) m

/-- Embedding of `reduce_qualities_in_edges` (src/main.rs lines 27-53):
`seq_len` is read once; the leading loop runs over
`0 .. num_bases + leading_softclips`, the trailing loop over
`0 .. num_bases + trailing_softclips`.  `none` marks a panic. -/
def reduce_qualities_in_edges (qual : List Nat) (num_bases qual_reduction
    leading_softclips trailing_softclips : Nat) : Option (List Nat) :=
  let seq_len := qual.length
  let afterLead :=
    forRange (leadStep seq_len qual_reduction) (some qual)
      (num_bases + leading_softclips)
  forRange (trailStep seq_len num_bases qual_reduction) afterLead
    (num_bases + trailing_softclips)

/-- Output container format, embedding `rust_htslib::bam::Format`
as used by `get_file_format`. -/
inductive Format where
  | Sam : Format
  | Bam : Format
  | Cram : Format
deriving DecidableEq, Repr

/-- Embedding of `get_file_format` (src/main.rs lines 7-15): format codes
taken from htslib's `htsExactFormat` enum; 3 is SAM (textual), 4 is BAM
(binary), 6 is CRAM (compressed/reference-based); anything else errors. -/
def get_file_format (hst_format : Nat) : Except String Format :=
  if hst_format = 3 then Except.ok Format.Sam
  else if hst_format = 4 then Except.ok Format.Bam
  else if hst_format = 6 then Except.ok Format.Cram
  else Except.error "Input file is not recognized as Sam, Bam or Cram"

/-- An alignment record: the quality array plus the auxiliary fields the
program reads and rewrites (`qname`, the CIGAR alignment-operation list as
(op-code, length) pairs, the base sequence). -/
structure AlignmentRecord where
  qname : List Nat
  cigar : List (Nat × Nat)
  seq : List Nat
  qual : List Nat
deriving DecidableEq, Repr

/-- Modelled from the spec: the collaborator (`rust_htslib`) accessor
`leading_softclips` — the leading clip is the length of a clip operation at
the start of the alignment-operation list if present, else 0.  Op code 4
encodes a soft clip in the BAM encoding. -/
def leading_softclips (cigar : List (Nat × Nat)) : Nat :=
  match cigar with
  | (op, len) :: _ => if op = 4 then len else 0
  | [] => 0

/-- Modelled from the spec: the collaborator (`rust_htslib`) accessor
`trailing_softclips` — symmetric at the end of the operation list. -/
def trailing_softclips (cigar : List (Nat × Nat)) : Nat :=
  match cigar.getLast? with
  | some (op, len) => if op = 4 then len else 0
  | none => 0

/-- Embedding of the collaborator call `record.set(qname, cigar, seq, qual)`:
rewrites all four core fields of the record at once. -/
def setRecord (qname : List Nat) (cigar : List (Nat × Nat))
    (seq : List Nat) (qual : List Nat) : AlignmentRecord :=
  { qname := qname, cigar := cigar, seq := seq, qual := qual }

/-- Embedding of `reduce_qualities_in_read` (src/main.rs lines 55-74): read
the quality array and the clip lengths, run the edge transform, then rewrite
all fields with `set`, re-supplying the name, CIGAR and sequence just read
from the same record.  `none` marks a panic inside the transform. -/
def reduce_qualities_in_read (record : AlignmentRecord)
    (num_bases qual_reduction : Nat) : Option AlignmentRecord :=
  match reduce_qualities_in_edges record.qual num_bases qual_reduction
      (leading_softclips record.cigar) (trailing_softclips record.cigar) with
  | some qual => some (setRecord record.qname record.cigar record.seq qual)
  | none => none

/-- The record loop of `trim_qualities_from_edges_in_bam`
(src/main.rs lines 106-114): records are adjusted and written one at a time;
a panic aborts the run. -/
def process_records (records : List AlignmentRecord)
    (num_bases qual_reduction : Nat) : Option (List AlignmentRecord) :=
  match records with
  | [] => some []
  | record :: rest =>
      match reduce_qualities_in_read record num_bases qual_reduction with
      | none => none
      | some record2 =>
          match process_records rest num_bases qual_reduction with
          | none => none
          | some rest2 => some (record2 :: rest2)

/-- Embedding of the format gate and record loop of
`trim_qualities_from_edges_in_bam` (src/main.rs lines 76-117): a source whose
htslib category is not 1 (sequence data) is rejected before any record is
processed; then the exact-format code is checked by `get_file_format`; only
then are records processed. -/
def trim_qualities_from_edges_in_bam (category hst_format : Nat)
    (records : List AlignmentRecord) (num_bases qual_reduction : Nat) :
    Except String (List AlignmentRecord) :=
  if category ≠ 1 then
    Except.error "The file is not recognized as sequence data"
  else
    match get_file_format hst_format with
    | Except.error e => Except.error e
    | Except.ok _ =>
        match process_records records num_bases qual_reduction with
        | some out => Except.ok out
        | none => Except.error "Failed to parse record"

/-! ### Helper lemmas -/

theorem reduce_single_qual_le (q r : Nat) : reduce_single_qual q r ≤ q := by
  unfold reduce_single_qual
  split
  · exact Nat.sub_le q r
  · exact Nat.zero_le q

theorem applyReduceAt_length {qual : List Nat} {r i : Nat} {out : List Nat}
    (h : applyReduceAt qual r i = some out) : out.length = qual.length := by
  cases hq : qual[i]? with
  | none => simp [applyReduceAt, hq] at h
  | some q =>
      simp only [applyReduceAt, hq] at h
      cases h
      exact List.length_set qual i _

theorem applyReduceAt_getElem_other {qual : List Nat} {r i : Nat} {out : List Nat}
    (h : applyReduceAt qual r i = some out) (j : Nat) (hj : j ≠ i) :
    out[j]? = qual[j]? := by
  cases hq : qual[i]? with
  | none => simp [applyReduceAt, hq] at h
  | some q =>
      simp only [applyReduceAt, hq] at h
      cases h
      exact List.getElem?_set_ne (Ne.symm hj)

theorem applyReduceAt_get_self {qual : List Nat} {r i : Nat} {out : List Nat} {x : Nat}
    (hq : qual[i]? = some x) (h : applyReduceAt qual r i = some out) :
    out[i]? = some (reduce_single_qual x r) := by
  simp only [applyReduceAt, hq] at h
  cases h
  obtain ⟨hi, -⟩ := List.getElem?_eq_some_iff.mp hq
  exact List.getElem?_set_self hi

theorem forall2_le_refl : ∀ l : List Nat, List.Forall₂ (· ≤ ·) l l := by
  intro l
  induction l with
  | nil => exact List.Forall₂.nil
  | cons x xs ih => exact List.Forall₂.cons (Nat.le_refl x) ih

theorem forall2_le_trans {a b : List Nat} (hab : List.Forall₂ (· ≤ ·) a b) :
    ∀ c, List.Forall₂ (· ≤ ·) b c → List.Forall₂ (· ≤ ·) a c := by
  induction hab with
  | nil =>
      intro c hbc
      cases hbc
      exact List.Forall₂.nil
  | cons hxy _ ih =>
      intro c hbc
      cases hbc with
      | cons hyz hrest => exact List.Forall₂.cons (Nat.le_trans hxy hyz) (ih _ hrest)

theorem forall2_le_set : ∀ (q : List Nat) (i v x : Nat), q[i]? = some x → v ≤ x →
    List.Forall₂ (· ≤ ·) (q.set i v) q := by
  intro q
  induction q with
  | nil => intro i v x hx; simp at hx
  | cons y ys ih =>
      intro i v x hx hv
      cases i with
      | zero =>
          simp only [List.getElem?_cons_zero] at hx
          cases hx
          exact List.Forall₂.cons hv (forall2_le_refl ys)
      | succ i =>
          simp only [List.getElem?_cons_succ] at hx
          exact List.Forall₂.cons (Nat.le_refl y) (ih i v x hx hv)

theorem forall2_le_get {a b : List Nat} (h : List.Forall₂ (· ≤ ·) a b) :
    ∀ (j x y : Nat), b[j]? = some x → a[j]? = some y → y ≤ x := by
  induction h with
  | nil => intro j x y hx; simp at hx
  | cons hxy _ ih =>
      intro j x y hx hy
      cases j with
      | zero =>
          simp only [List.getElem?_cons_zero] at hx hy
          cases hx
          cases hy
          exact hxy
      | succ j =>
          simp only [List.getElem?_cons_succ] at hx hy
          exact ih j x y hx hy

theorem applyReduceAt_le {qual : List Nat} {r i : Nat} {out : List Nat}
    (h : applyReduceAt qual r i = some out) : List.Forall₂ (· ≤ ·) out qual := by
  cases hq : qual[i]? with
  | none => simp [applyReduceAt, hq] at h
  | some x =>
      simp only [applyReduceAt, hq] at h
      cases h
      exact forall2_le_set qual i _ x hq (reduce_single_qual_le x r)

theorem leadStep_none (seq_len r : Nat) : ∀ k, leadStep seq_len r none k = none :=
  fun _ => rfl

theorem trailStep_none (seq_len n r : Nat) : ∀ k, trailStep seq_len n r none k = none :=
  fun _ => rfl

theorem leadStep_length {seq_len r k : Nat} {q q2 : List Nat}
    (h : leadStep seq_len r (some q) k = some q2) : q2.length = q.length := by
  simp only [leadStep] at h
  split at h
  · cases h; rfl
  · exact applyReduceAt_length h

theorem trailStep_length {seq_len n r k : Nat} {q q2 : List Nat}
    (h : trailStep seq_len n r (some q) k = some q2) : q2.length = q.length := by
  simp only [trailStep] at h
  split at h
  · cases h; rfl
  · exact applyReduceAt_length h

theorem leadStep_le {seq_len r k : Nat} {q q2 : List Nat}
    (h : leadStep seq_len r (some q) k = some q2) : List.Forall₂ (· ≤ ·) q2 q := by
  simp only [leadStep] at h
  split at h
  · cases h; exact forall2_le_refl q
  · exact applyReduceAt_le h

theorem trailStep_le {seq_len n r k : Nat} {q q2 : List Nat}
    (h : trailStep seq_len n r (some q) k = some q2) : List.Forall₂ (· ≤ ·) q2 q := by
  simp only [trailStep] at h
  split at h
  · cases h; exact forall2_le_refl q
  · exact applyReduceAt_le h

theorem leadStep_some {seq_len r k : Nat} {q : List Nat} (hlen : q.length = seq_len) :
    ∃ q2, leadStep seq_len r (some q) k = some q2 ∧ q2.length = seq_len := by
  simp only [leadStep]
  by_cases hk : k ≥ seq_len
  · rw [if_pos hk]
    exact ⟨q, rfl, hlen⟩
  · rw [if_neg hk]
    cases hq : q[k]? with
    | none =>
        rw [List.getElem?_eq_none_iff] at hq
        omega
    | some x =>
        refine ⟨q.set k (reduce_single_qual x r), ?_, ?_⟩
        · simp only [applyReduceAt, hq]
        · rw [List.length_set]
          exact hlen

theorem trailStep_some {seq_len n r k : Nat} {q : List Nat}
    (hlen : q.length = seq_len) (hseq : 1 ≤ seq_len) :
    ∃ q2, trailStep seq_len n r (some q) k = some q2 ∧ q2.length = seq_len := by
  simp only [trailStep]
  by_cases hc : seq_len - (k + 1) < n
  · rw [if_pos hc]
    exact ⟨q, rfl, hlen⟩
  · rw [if_neg hc]
    cases hq : q[seq_len - (k + 1)]? with
    | none =>
        rw [List.getElem?_eq_none_iff] at hq
        omega
    | some x =>
        refine ⟨q.set (seq_len - (k + 1)) (reduce_single_qual x r), ?_, ?_⟩
        · simp only [applyReduceAt, hq]
        · rw [List.length_set]
          exact hlen

theorem leadStep_untouched {seq_len r k : Nat} {q q2 : List Nat} {j : Nat}
    (hk : k ≠ j) (h : leadStep seq_len r (some q) k = some q2) : q2[j]? = q[j]? := by
  simp only [leadStep] at h
  split at h
  · cases h; rfl
  · exact applyReduceAt_getElem_other h j (Ne.symm hk)

theorem trailStep_untouched_lt {seq_len n r k : Nat} {q q2 : List Nat} {j : Nat}
    (hj : j < n) (h : trailStep seq_len n r (some q) k = some q2) : q2[j]? = q[j]? := by
  simp only [trailStep] at h
  split at h
  · cases h; rfl
  · rename_i hc
    exact applyReduceAt_getElem_other h j (by omega)

theorem forRange_none {f : Option (List Nat) → Nat → Option (List Nat)}
    (hf : ∀ k, f none k = none) : ∀ m, forRange f none m = none := by
  intro m
  induction m with
  | zero => rfl
  | succ m ih => simp only [forRange, ih, hf]

theorem forRange_some {f : Option (List Nat) → Nat → Option (List Nat)}
    (P : List Nat → Prop)
    (hf : ∀ (q : List Nat) (k : Nat), P q → ∃ q2, f (some q) k = some q2 ∧ P q2) :
    ∀ (m : Nat) (q : List Nat), P q →
      ∃ q2, forRange f (some q) m = some q2 ∧ P q2 := by
  intro m
  induction m with
  | zero => intro q hq; exact ⟨q, rfl, hq⟩
  | succ m ih =>
      intro q hq
      obtain ⟨q1, h1, hP1⟩ := ih q hq
      obtain ⟨q2, h2, hP2⟩ := hf q1 m hP1
      refine ⟨q2, ?_, hP2⟩
      simp only [forRange, h1, h2]

theorem forRange_rel {f : Option (List Nat) → Nat → Option (List Nat)}
    (R : List Nat → List Nat → Prop)
    (hrefl : ∀ q, R q q)
    (htrans : ∀ a b c, R a b → R b c → R a c)
    (hnone : ∀ k, f none k = none)
    (hf : ∀ (q : List Nat) (k : Nat) (q2 : List Nat), f (some q) k = some q2 → R q2 q) :
    ∀ (m : Nat) (q q2 : List Nat), forRange f (some q) m = some q2 → R q2 q := by
  intro m
  induction m with
  | zero =>
      intro q q2 h
      simp only [forRange] at h
      cases h
      exact hrefl q
  | succ m ih =>
      intro q q2 h
      simp only [forRange] at h
      cases hmid : forRange f (some q) m with
      | none =>
          rw [hmid, hnone] at h
          cases h
      | some q1 =>
          rw [hmid] at h
          exact htrans q2 q1 q (hf q1 m q2 h) (ih q q1 hmid)

theorem forRange_untouched {f : Option (List Nat) → Nat → Option (List Nat)}
    (j : Nat) (hnone : ∀ k, f none k = none) :
    ∀ m : Nat,
      (∀ (q : List Nat) (k : Nat) (q2 : List Nat), k < m →
        f (some q) k = some q2 → q2[j]? = q[j]?) →
      ∀ (q q2 : List Nat), forRange f (some q) m = some q2 → q2[j]? = q[j]? := by
  intro m
  induction m with
  | zero =>
      intro _ q q2 h
      simp only [forRange] at h
      cases h
      rfl
  | succ m ih =>
      intro hf q q2 h
      simp only [forRange] at h
      cases hmid : forRange f (some q) m with
      | none =>
          rw [hmid, hnone] at h
          cases h
      | some q1 =>
          rw [hmid] at h
          have h1 := ih (fun q k q2 hk => hf q k q2 (Nat.lt_succ_of_lt hk)) q q1 hmid
          rw [hf q1 m q2 (Nat.lt_succ_self m) h, h1]

theorem lead_fold_get {seq_len r : Nat} {q : List Nat} (hlen : q.length = seq_len)
    {i : Nat} (hi : i < seq_len) :
    ∀ m : Nat, i < m → ∀ q2 : List Nat,
      forRange (leadStep seq_len r) (some q) m = some q2 →
      ∃ x, q[i]? = some x ∧ q2[i]? = some (reduce_single_qual x r) := by
  intro m
  induction m with
  | zero => intro him; omega
  | succ m ih =>
      intro him q2 h
      simp only [forRange] at h
      obtain ⟨q1, hmid, hlen1⟩ := forRange_some (fun l => l.length = seq_len)
        (fun l k hl => leadStep_some hl) m q hlen
      rw [hmid] at h
      by_cases hlt : i < m
      · obtain ⟨x, hx, hq1⟩ := ih hlt q1 hmid
        refine ⟨x, hx, ?_⟩
        rw [leadStep_untouched (by omega) h, hq1]
      · have heq : m = i := by omega
        rw [heq] at hmid h
        have hq_untouched : q1[i]? = q[i]? :=
          forRange_untouched i (leadStep_none seq_len r) i
            (fun l k l2 hk hstep => leadStep_untouched (by omega) hstep) q q1 hmid
        obtain ⟨x, hx⟩ : ∃ x, q[i]? = some x :=
          ⟨_, List.getElem?_eq_getElem (by omega)⟩
        have hii : ¬ (i ≥ seq_len) := by omega
        simp only [leadStep] at h
        rw [if_neg hii] at h
        exact ⟨x, hx, applyReduceAt_get_self (hq_untouched.trans hx) h⟩

/-! ### Claim theorems -/

/-- C1: the claim says the out-of-bounds branch of `reduce_qualities_in_edges`
is unreachable for all inputs, including the empty array.  The code violates
this: on the empty array with `num_bases = 0` and `trailing_softclips = 1`,
the trailing pass computes the saturated index `0`, the guard `0 < 0` does not
fire, and `qual[0]` is an out-of-range access (a panic, `none` here). -/
theorem C1_panic_eval : reduce_qualities_in_edges [] 0 5 0 1 = none := by decide

/-- C2: every position `i` with `i < num_bases` and `i < seq_len` is reduced
exactly once: the leading pass reduces it and the trailing pass never touches
a position below `num_bases`, so the output at `i` is exactly the single
saturating reduction of the input at `i`. -/
theorem C2_lead_zone_once (qual : List Nat) (n r lc tc i : Nat)
    (h1 : i < n) (h2 : i < qual.length) :
    ∃ out, reduce_qualities_in_edges qual n r lc tc = some out ∧
      out[i]? = (qual[i]?).map fun x => reduce_single_qual x r := by
  have hseq : 1 ≤ qual.length := by omega
  obtain ⟨q1, hlead, hlen1⟩ := forRange_some (fun l => l.length = qual.length)
    (fun l k hl => leadStep_some hl) (n + lc) qual rfl
  obtain ⟨x, hx, hq1i⟩ := lead_fold_get rfl h2 (n + lc) (by omega) q1 hlead
  obtain ⟨out, htrail, -⟩ := forRange_some (fun l => l.length = qual.length)
    (fun l k hl => trailStep_some hl hseq) (n + tc) q1 hlen1
  have huntouched : out[i]? = q1[i]? :=
    forRange_untouched i (trailStep_none qual.length n r) (n + tc)
      (fun l k l2 hk hstep => trailStep_untouched_lt h1 hstep) q1 out htrail
  refine ⟨out, ?_, ?_⟩
  · simp only [reduce_qualities_in_edges]
    rw [hlead]
    exact htrail
  · rw [huntouched, hq1i, hx]
    rfl

theorem C2_lead_zone_once_witness :
    1 < 2 ∧ 1 < ([30, 25, 20, 15, 10, 5] : List Nat).length ∧
    ∃ out, reduce_qualities_in_edges [30, 25, 20, 15, 10, 5] 2 5 0 0 = some out ∧
      out[1]? = (([30, 25, 20, 15, 10, 5] : List Nat)[1]?).map
        fun x => reduce_single_qual x 5 :=
  ⟨by decide, by decide,
    C2_lead_zone_once [30, 25, 20, 15, 10, 5] 2 5 0 0 1 (by decide) (by decide)⟩

/-- C3: the claim says every trailing-pass candidate `k` with `k ≥ seq_len` is
skipped, so the saturated index never causes a repeated reduction.  False as
stated: with `num_bases = 0` the guard `pos_from_end < num_bases` never fires,
so each candidate `k ≥ seq_len` re-reduces position 0.  Concretely, candidate
`k = 1 ≥ seq_len = 1` rewrites `[10]` to `[7]`, and the whole transform on
`[10]` with `num_bases = 0`, reduction 3, `trailing_softclips = 3` reduces
position 0 three times, yielding `[1]` instead of the once-reduced `[7]`. -/
theorem C3_counterexample :
    trailStep 1 0 3 (some [10]) 1 = some [7] ∧
    ¬ trailStep 1 0 3 (some [10]) 1 = some [10] ∧
    reduce_qualities_in_edges [10] 0 3 0 3 = some [1] ∧
    ¬ reduce_qualities_in_edges [10] 0 3 0 3 = some [7] := by decide

/-- C3 (amended): provided `num_bases ≥ 1`, every trailing-pass candidate `k`
with `k ≥ seq_len` is skipped (the saturated index is 0, which the guard
`pos_from_end < num_bases` excludes), so no position is modified by such a
candidate. -/
theorem C3_amended_skip (seq_len n r k : Nat) (q : List Nat)
    (h1 : 1 ≤ n) (h2 : seq_len ≤ k) : trailStep seq_len n r (some q) k = some q := by
  have hz : seq_len - (k + 1) = 0 := by omega
  simp only [trailStep, hz]
  rw [if_pos (by omega)]

theorem C3_amended_skip_witness :
    1 ≤ 1 ∧ 2 ≤ 5 ∧ trailStep 2 1 7 (some [9, 9]) 5 = some [9, 9] :=
  ⟨by decide, by decide, C3_amended_skip 2 1 7 5 [9, 9] (by decide) (by decide)⟩

/-- C4: `reduce_single_qual` returns `value - amount` when `value ≥ amount`
and `0` otherwise; hence the result never exceeds `value`, and is `0` whenever
`amount ≥ value`.  It is a pure total function. -/
theorem C4_saturating_reduce (value amount : Nat)
    (hv : value < 256) (ha : amount < 256) :
    (amount ≤ value → reduce_single_qual value amount = value - amount) ∧
    (value < amount → reduce_single_qual value amount = 0) ∧
    reduce_single_qual value amount ≤ value ∧
    (value ≤ amount → reduce_single_qual value amount = 0) := by
  refine ⟨?_, ?_, reduce_single_qual_le value amount, ?_⟩
  · intro h
    unfold reduce_single_qual
    split <;> omega
  · intro h
    unfold reduce_single_qual
    split <;> omega
  · intro h
    unfold reduce_single_qual
    split <;> omega

theorem C4_saturating_reduce_witness :
    10 < 256 ∧ 3 < 256 ∧
    ((3 ≤ 10 → reduce_single_qual 10 3 = 10 - 3) ∧
      (10 < 3 → reduce_single_qual 10 3 = 0) ∧
      reduce_single_qual 10 3 ≤ 10 ∧
      (10 ≤ 3 → reduce_single_qual 10 3 = 0)) :=
  ⟨by decide, by decide, C4_saturating_reduce 10 3 (by decide) (by decide)⟩

/-- C5: whenever the transform is defined (returns a value), every output
quality is less than or equal to the corresponding input quality — values
only ever decrease, even at positions visited by both passes. -/
theorem C5_monotone_decrease (qual : List Nat) (n r lc tc : Nat)
    (out : List Nat) (h : reduce_qualities_in_edges qual n r lc tc = some out)
    (i x y : Nat) (hx : qual[i]? = some x) (hy : out[i]? = some y) : y ≤ x := by
  simp only [reduce_qualities_in_edges] at h
  cases hmid : forRange (leadStep qual.length r) (some qual) (n + lc) with
  | none =>
      rw [hmid, forRange_none (trailStep_none qual.length n r)] at h
      cases h
  | some q1 =>
      rw [hmid] at h
      have hle1 : List.Forall₂ (· ≤ ·) q1 qual :=
        forRange_rel (List.Forall₂ (· ≤ ·)) forall2_le_refl
          (fun a b c hab hbc => forall2_le_trans hab c hbc)
          (leadStep_none qual.length r)
          (fun l k l2 hstep => leadStep_le hstep) (n + lc) qual q1 hmid
      have hle2 : List.Forall₂ (· ≤ ·) out q1 :=
        forRange_rel (List.Forall₂ (· ≤ ·)) forall2_le_refl
          (fun a b c hab hbc => forall2_le_trans hab c hbc)
          (trailStep_none qual.length n r)
          (fun l k l2 hstep => trailStep_le hstep) (n + tc) q1 out h
      exact forall2_le_get (forall2_le_trans hle2 qual hle1) i x y hx hy

theorem C5_monotone_decrease_witness :
    reduce_qualities_in_edges [30, 25, 20, 15, 10, 5] 2 5 0 0 =
      some [25, 20, 20, 15, 5, 0] ∧
    ([30, 25, 20, 15, 10, 5] : List Nat)[5]? = some 5 ∧
    ([25, 20, 20, 15, 5, 0] : List Nat)[5]? = some 0 ∧ 0 ≤ 5 :=
  ⟨by decide, by decide, by decide,
    C5_monotone_decrease [30, 25, 20, 15, 10, 5] 2 5 0 0 [25, 20, 20, 15, 5, 0]
      (by decide) 5 5 0 (by decide) (by decide)⟩

/-- C6: whenever the transform is defined, the output array has exactly the
same length as the input array. -/
theorem C6_length_preserved (qual : List Nat) (n r lc tc : Nat)
    (out : List Nat) (h : reduce_qualities_in_edges qual n r lc tc = some out) :
    out.length = qual.length := by
  simp only [reduce_qualities_in_edges] at h
  cases hmid : forRange (leadStep qual.length r) (some qual) (n + lc) with
  | none =>
      rw [hmid, forRange_none (trailStep_none qual.length n r)] at h
      cases h
  | some q1 =>
      rw [hmid] at h
      have hl1 : q1.length = qual.length :=
        forRange_rel (fun a b => a.length = b.length) (fun l => rfl)
          (fun a b c hab hbc => hab.trans hbc) (leadStep_none qual.length r)
          (fun l k l2 hstep => leadStep_length hstep) (n + lc) qual q1 hmid
      have hl2 : out.length = q1.length :=
        forRange_rel (fun a b => a.length = b.length) (fun l => rfl)
          (fun a b c hab hbc => hab.trans hbc) (trailStep_none qual.length n r)
          (fun l k l2 hstep => trailStep_length hstep) (n + tc) q1 out h
      exact hl2.trans hl1

theorem C6_length_preserved_witness :
    reduce_qualities_in_edges [30, 25, 20] 4 10 0 0 = some [20, 15, 10] ∧
    ([20, 15, 10] : List Nat).length = ([30, 25, 20] : List Nat).length :=
  ⟨by decide,
    C6_length_preserved [30, 25, 20] 4 10 0 0 [20, 15, 10] (by decide)⟩

/-- C7: the claim says `qual_reduction = 0` makes the transform the identity
for every array and every `num_bases`/clip values.  The code violates this:
on the empty array with `num_bases = 0` and `trailing_softclips = 1` it does
not return the input — it panics on the out-of-range index `qual[0]`
(`none` here), the same slip exhibited for C1. -/
theorem C7_panic_eval : reduce_qualities_in_edges [] 0 0 0 1 = none := by decide

/-- C8: whenever the per-record adjustment returns, the adjusted record keeps
the same name, the same alignment-operation (CIGAR) list and the same base
sequence as before; only the quality array may differ. -/
theorem C8_frame (record : AlignmentRecord) (n r : Nat)
    (record2 : AlignmentRecord)
    (h : reduce_qualities_in_read record n r = some record2) :
    record2.qname = record.qname ∧ record2.cigar = record.cigar ∧
    record2.seq = record.seq := by
  cases hq : reduce_qualities_in_edges record.qual n r
      (leading_softclips record.cigar) (trailing_softclips record.cigar) with
  | none =>
      simp only [reduce_qualities_in_read, hq] at h
      cases h
  | some qual2 =>
      simp only [reduce_qualities_in_read, hq] at h
      cases h
      exact ⟨rfl, rfl, rfl⟩

theorem C8_frame_witness :
    reduce_qualities_in_read
        ⟨[1], [(4, 1), (0, 2)], [7, 7, 7], [30, 25, 20]⟩ 1 5 =
      some ⟨[1], [(4, 1), (0, 2)], [7, 7, 7], [25, 20, 15]⟩ ∧
    (AlignmentRecord.qname ⟨[1], [(4, 1), (0, 2)], [7, 7, 7], [25, 20, 15]⟩ =
        AlignmentRecord.qname ⟨[1], [(4, 1), (0, 2)], [7, 7, 7], [30, 25, 20]⟩ ∧
      AlignmentRecord.cigar ⟨[1], [(4, 1), (0, 2)], [7, 7, 7], [25, 20, 15]⟩ =
        AlignmentRecord.cigar ⟨[1], [(4, 1), (0, 2)], [7, 7, 7], [30, 25, 20]⟩ ∧
      AlignmentRecord.seq ⟨[1], [(4, 1), (0, 2)], [7, 7, 7], [25, 20, 15]⟩ =
        AlignmentRecord.seq ⟨[1], [(4, 1), (0, 2)], [7, 7, 7], [30, 25, 20]⟩) :=
  ⟨by decide,
    C8_frame ⟨[1], [(4, 1), (0, 2)], [7, 7, 7], [30, 25, 20]⟩ 1 5
      ⟨[1], [(4, 1), (0, 2)], [7, 7, 7], [25, 20, 15]⟩ (by decide)⟩

/-- C9: the format gate accepts exactly the three sub-format codes 3 (SAM,
textual), 4 (BAM, binary) and 6 (CRAM, compressed/reference-based) and
returns a descriptive error for every other code; and a source whose htslib
category is not 1 (sequence data) is rejected with a descriptive error before
any record is processed (the error is returned whatever the record list). -/
theorem C9_format_gate (hst_format category fmtc n r : Nat)
    (records : List AlignmentRecord) :
    get_file_format 3 = Except.ok Format.Sam ∧
    get_file_format 4 = Except.ok Format.Bam ∧
    get_file_format 6 = Except.ok Format.Cram ∧
    ((∃ fmt, get_file_format hst_format = Except.ok fmt) ↔
      hst_format = 3 ∨ hst_format = 4 ∨ hst_format = 6) ∧
    (hst_format ≠ 3 → hst_format ≠ 4 → hst_format ≠ 6 →
      get_file_format hst_format =
        Except.error "Input file is not recognized as Sam, Bam or Cram") ∧
    (category ≠ 1 → trim_qualities_from_edges_in_bam category fmtc records n r =
      Except.error "The file is not recognized as sequence data") := by
  refine ⟨rfl, rfl, rfl, ?_, ?_, ?_⟩
  · constructor
    · rintro ⟨fmt, hfmt⟩
      by_contra hc
      push_neg at hc
      obtain ⟨h3, h4, h6⟩ := hc
      simp [get_file_format, h3, h4, h6] at hfmt
    · rintro (h | h | h) <;> subst h <;> exact ⟨_, rfl⟩
  · intro h3 h4 h6
    simp [get_file_format, h3, h4, h6]
  · intro hcat
    simp [trim_qualities_from_edges_in_bam, hcat]

theorem C9_format_gate_witness :
    get_file_format 3 = Except.ok Format.Sam ∧
    get_file_format 4 = Except.ok Format.Bam ∧
    get_file_format 6 = Except.ok Format.Cram ∧
    ((∃ fmt, get_file_format 5 = Except.ok fmt) ↔
      (5 : Nat) = 3 ∨ (5 : Nat) = 4 ∨ (5 : Nat) = 6) ∧
    ((5 : Nat) ≠ 3 → (5 : Nat) ≠ 4 → (5 : Nat) ≠ 6 →
      get_file_format 5 =
        Except.error "Input file is not recognized as Sam, Bam or Cram") ∧
    ((0 : Nat) ≠ 1 → trim_qualities_from_edges_in_bam 0 4 [] 3 20 =
      Except.error "The file is not recognized as sequence data") :=
  C9_format_gate 5 0 4 3 20 []

/-- C10: for every non-empty quality array the transform is total: the leading
pass is bounds-guarded and the trailing pass's saturated index
`seq_len - (pos + 1)` always lands inside a non-empty array, so no
out-of-range access (panic) occurs for any `num_bases`, `qual_reduction` or
clip values. -/
theorem C10_total_nonempty (qual : List Nat) (n r lc tc : Nat)
    (h : 1 ≤ qual.length) :
    ∃ out, reduce_qualities_in_edges qual n r lc tc = some out := by
  obtain ⟨q1, h1, hlen1⟩ := forRange_some (fun l => l.length = qual.length)
    (fun l k hl => leadStep_some hl) (n + lc) qual rfl
  obtain ⟨q2, h2, -⟩ := forRange_some (fun l => l.length = qual.length)
    (fun l k hl => trailStep_some hl h) (n + tc) q1 hlen1
  refine ⟨q2, ?_⟩
  simp only [reduce_qualities_in_edges]
  rw [h1]
  exact h2

theorem C10_total_nonempty_witness :
    1 ≤ ([30, 25, 20] : List Nat).length ∧
    ∃ out, reduce_qualities_in_edges [30, 25, 20] 4 10 7 9 = some out :=
  ⟨by decide, C10_total_nonempty [30, 25, 20] 4 10 7 9 (by decide)⟩

end TrimQuals
